import Mathlib

/-!
Verification of the probabilistic data-sketch components of the
`sta-663-2018` teaching notebooks (`S14F_Data_Sketches.ipynb`):
the Morris approximate counter, the simple string hash, the averaged
counter ensemble, and the spec-described cardinality estimator and
membership filter (whose concrete implementations live in external
libraries, so those two are modelled from the design document).
-/

/-- The Morris counter from the notebook: a single integer exponent `c`
(Python: `self.c`, default 0), representing an estimated count of `2^c`. -/
structure MorrisCounter where
  c : Nat
  deriving DecidableEq, Repr

/-- Embedding of `MorrisCounter.__init__` with its default argument. -/
def MorrisCounter.init : MorrisCounter := ⟨0⟩

/-- Embedding of `MorrisCounter.__len__`: `return 2 ** self.c`. -/
def MorrisCounter.len (m : MorrisCounter) : Nat := 2 ^ m.c

/-- Embedding of `MorrisCounter.add`:
`self.c += random() < 1/(2**self.c)`.
The uniform draw `random()` is made explicit as the argument `u`
(a rational in `[0,1)`; every float `random()` can return is such a
rational, and `1/(2**self.c)` is an exact power of two, so the float
comparison is exact).  The Boolean comparison is added to `c`
(Python adds `True` as 1 and `False` as 0).  The `item` argument is
kept because the Python method takes it, although the body ignores it. -/
def MorrisCounter.add (m : MorrisCounter) (u : ℚ) (item : String) : MorrisCounter :=
  ⟨m.c + (if u < 1 / 2 ^ m.c then 1 else 0)⟩

/-- A whole stream of `add` calls: one uniform draw per call, items paired
with draws. -/
def MorrisCounter.addAll (m : MorrisCounter) (calls : List (ℚ × String)) : MorrisCounter :=
  calls.foldl (fun s p => s.add p.1 p.2) m

/-- Sum of code points of the characters of a word (the Python generator
`sum(ord(char) for char in word)` from `string_hash`, `ord` being
`Char.toNat`). -/
def ordSum (word : String) : Int :=
  (word.data.map (fun char => (char.toNat : Int))).sum

/-- Embedding of the notebook's
`def string_hash(word, n): return sum(ord(char) for char in word) % n`.
Python `%` is floored modulo (`Int.fmod`) and raises `ZeroDivisionError`
when `n = 0`, which the embedding models as `none`. -/
def string_hash (word : String) (n : Int) : Option Int :=
  if n = 0 then none else some ((ordSum word).fmod n)

/-- One pass of the notebook's ensemble loop
(`for j in range(10): mcs[j].add(word)`): counter `j` is updated with its
own uniform draw `us[j]`. -/
def mcsAdd (ms : List MorrisCounter) (us : List ℚ) (item : String) :
    List MorrisCounter :=
  List.zipWith (fun m u => m.add u item) ms us

/-- The ensemble estimate `np.mean([len(m) for m in mcs])`. -/
def mcsEstimate (ms : List MorrisCounter) : ℚ :=
  (ms.map (fun m => (m.len : ℚ))).sum / ms.length

/-- Modelled from the spec: the repository's cardinality estimator lives in
the external `hyperloglog` library (the notebook only calls it), so the
state is taken from §3/§4.3 of the design document — a fixed array of `m`
small registers, each holding the maximum rank observed for its bucket. -/
structure CardinalityEstimator where
  registers : List Nat
  deriving DecidableEq, Repr

/-- Modelled from the spec: the published bias-correction constant `α_m`
(the design document instructs implementers to use the standard published
values), as an exact rational. -/
def alphaConst (m : Nat) : ℚ :=
  if m = 16 then 673/1000
  else if m = 32 then 697/1000
  else if m = 64 then 709/1000
  else (7213/10000) / (1 + (1079/1000) / m)

/-- Modelled from the spec: `estimate()` per §4.3 — the normalized harmonic
mean `α_m * m² / Σ 2^{-register[j]}`.  The small- and large-range
corrections of §4.3 are omitted here (the document leaves their formulas to
published constants); the algebraic merge claims below do not depend on
them, since any correction is a function of the registers. -/
def CardinalityEstimator.estimate (e : CardinalityEstimator) : ℚ :=
  alphaConst e.registers.length * (e.registers.length : ℚ) ^ 2 /
    (e.registers.map (fun r => 1 / (2:ℚ) ^ r)).sum

/-- Modelled from the spec: `merge(other)` per §4.3 — requires identical
register counts (otherwise a ConfigurationMismatch, modelled as `none`) and
takes the element-wise maximum of the registers. -/
def CardinalityEstimator.merge (a b : CardinalityEstimator) :
    Option CardinalityEstimator :=
  if a.registers.length = b.registers.length then
    some ⟨List.zipWith max a.registers b.registers⟩
  else none

/-- Modelled from the spec: the repository's Bloom filter lives in the
external `pybloom` library (the notebook only calls `ScalableBloomFilter`);
state per §3/§4.4 of the design document — a bit vector of length `k` and a
list of independent hash seeds.  (A zero-capacity `k` is rejected at
construction per §4.4, which appears as the hypothesis `0 < k` in the
theorems below.) -/
structure MembershipFilter where
  k : Nat
  seeds : List Nat
  bits : List Bool
  deriving DecidableEq, Repr

/-- Modelled from the spec: `add(item)` per §4.4 — for each seed, set bit
`hash(seed, item) mod k` to 1. -/
def MembershipFilter.add (f : MembershipFilter) (hash : Nat → String → Nat)
    (x : String) : MembershipFilter :=
  { f with bits := f.seeds.foldl (fun bs s => bs.set (hash s x % f.k) true) f.bits }

/-- Feeding a whole stream of subsequent items. -/
def MembershipFilter.addAll (f : MembershipFilter)
    (hash : Nat → String → Nat) (xs : List String) : MembershipFilter :=
  xs.foldl (fun g y => g.add hash y) f

/-- Modelled from the spec: `contains(item)` per §4.4 — true iff the bit at
`hash(seed, item) mod k` is 1 for every seed. -/
def MembershipFilter.contains (f : MembershipFilter)
    (hash : Nat → String → Nat) (x : String) : Bool :=
  f.seeds.all (fun s => f.bits.getD (hash s x % f.k) false)

/-- A small concrete hash for exercising the filter. -/
def testHash : Nat → String → Nat := fun s w => s + w.length

/-- A small concrete filter: 5 bits and three seeds, initially empty. -/
def testFilter : MembershipFilter :=
  ⟨5, [0, 1, 2], [false, false, false, false, false]⟩

/-! ### Morris counter theorems -/

theorem MorrisCounter.c_le_add (m : MorrisCounter) (u : ℚ) (item : String) :
    m.c ≤ (m.add u item).c := by
  unfold MorrisCounter.add
  split <;> simp

theorem MorrisCounter.c_le_addAll (m : MorrisCounter) (calls : List (ℚ × String)) :
    m.c ≤ (m.addAll calls).c := by
  induction calls generalizing m with
  | nil => exact Nat.le_refl _
  | cons p ps ih =>
      exact Nat.le_trans (m.c_le_add p.1 p.2) (ih (m.add p.1 p.2))

/-- C2: `add` draws one uniform value `u`; it increments the exponent by
exactly 1 when `u < 1/2^c` and leaves the whole state unchanged otherwise;
`c` is the only field, so nothing else is mutated. -/
theorem morris_add_spec (m : MorrisCounter) (u : ℚ) (item : String) :
    (u < 1 / 2 ^ m.c → (m.add u item).c = m.c + 1) ∧
    (¬ u < 1 / 2 ^ m.c → m.add u item = m) := by
  constructor
  · intro h
    simp only [MorrisCounter.add, if_pos h]
  · intro h
    simp only [MorrisCounter.add, if_neg h, Nat.add_zero]

/-- Witness for C2 at concrete inputs: with `c = 2`, the draw `1/8 < 1/4`
increments to 3, while the draw `1/2 ≥ 1/4` leaves the counter unchanged. -/
theorem morris_add_spec_witness :
    (MorrisCounter.add ⟨2⟩ (1/8) "x").c = 2 + 1 ∧
    MorrisCounter.add ⟨2⟩ (1/2) "x" = ⟨2⟩ :=
  ⟨(morris_add_spec ⟨2⟩ (1/8) "x").1 (by norm_num),
   (morris_add_spec ⟨2⟩ (1/2) "x").2 (by norm_num)⟩

/-- C3: `estimate()` (Python `__len__`) returns exactly `2^c`; in this pure
embedding it takes the state as input and returns only a number, mutating
nothing. -/
theorem morris_len_spec (m : MorrisCounter) : m.len = 2 ^ m.c := rfl

/-- C4: the exponent never decreases: each `add` call, whatever its random
draw and item, yields `c` at least as large as before, and hence over any
finite sequence of calls both `c` and the estimate `2^c` are monotone. -/
theorem morris_monotone (m : MorrisCounter) (u : ℚ) (item : String)
    (calls : List (ℚ × String)) :
    m.c ≤ (m.add u item).c ∧
    m.c ≤ (m.addAll calls).c ∧
    m.len ≤ (m.addAll calls).len := by
  refine ⟨m.c_le_add u item, m.c_le_addAll calls, ?_⟩
  exact Nat.pow_le_pow_right (by norm_num) (m.c_le_addAll calls)

/-- C8: the state reached by `add` does not depend on the item observed:
from equal states and an equal draw, any two items give equal results
(the Python body `self.c += random() < 1/(2**self.c)` never reads `item`). -/
theorem morris_add_item_noninterference (m : MorrisCounter) (u : ℚ)
    (x y : String) : m.add u x = m.add u y := rfl

/-- C9: on a fresh counter (`c = 0`) the threshold is `1/2^0 = 1`, so any
draw in `[0,1)` passes the test: the first `add` always sets `c = 1` and
the estimate becomes exactly 2. -/
theorem morris_first_add (u : ℚ) (item : String) (h0 : 0 ≤ u) (h1 : u < 1) :
    (MorrisCounter.init.add u item).c = 1 ∧
    (MorrisCounter.init.add u item).len = 2 := by
  have h : u < 1 / 2 ^ MorrisCounter.init.c := by
    simpa [MorrisCounter.init] using h1
  constructor
  · simp only [MorrisCounter.add, if_pos h]
    rfl
  · simp only [MorrisCounter.len, MorrisCounter.add, if_pos h]
    rfl

/-- Witness for C9 at the concrete draw `u = 1/2`. -/
theorem morris_first_add_witness :
    (0:ℚ) ≤ 1/2 ∧ (1:ℚ)/2 < 1 ∧
    ((MorrisCounter.init.add (1/2) "w").c = 1 ∧
     (MorrisCounter.init.add (1/2) "w").len = 2) :=
  ⟨by norm_num, by norm_num, morris_first_add (1/2) "w" (by norm_num) (by norm_num)⟩

/-! ### String hash theorems -/

/-- C6 counterexample: `string_hash` is not total over every range
parameter — at modulus `n = 0` the Python code raises `ZeroDivisionError`
instead of producing a value. -/
theorem string_hash_zero_modulus_fails : string_hash "a" 0 = none := rfl

/-- C6 (amended): for every nonzero modulus `n`, `string_hash` produces a
value, and when `n` is positive that value lies in the output range
`[0, n)`; being a pure function of `(word, n)`, equal inputs always give
equal outputs. -/
theorem string_hash_total_in_range (word : String) (n : Int) (hn : n ≠ 0) :
    ∃ v, string_hash word n = some v ∧ (0 < n → 0 ≤ v ∧ v < n) := by
  refine ⟨(ordSum word).fmod n, ?_, ?_⟩
  · simp [string_hash, hn]
  · intro hpos
    exact ⟨Int.fmod_nonneg' _ hpos, Int.fmod_lt_of_pos _ hpos⟩

/-- Witness for amended C6 at `word = "fox"`, `n = 10`. -/
theorem string_hash_total_in_range_witness :
    (10 : Int) ≠ 0 ∧ ∃ v, string_hash "fox" 10 = some v ∧
      (0 < (10:Int) → 0 ≤ v ∧ v < 10) :=
  ⟨by norm_num, string_hash_total_in_range "fox" 10 (by norm_num)⟩

/-- C10: `string_hash` depends only on the multiset of characters of its
input: permuting the characters of a word never changes the hash, for any
modulus (so all anagrams collide). -/
theorem string_hash_perm_invariant (w w' : String) (n : Int)
    (hperm : w.data.Perm w'.data) :
    string_hash w n = string_hash w' n := by
  have hsum : ordSum w = ordSum w' := by
    unfold ordSum
    exact List.Perm.sum_eq (hperm.map (fun char => (char.toNat : Int)))
  unfold string_hash
  rw [hsum]

/-- Witness for C10: the anagrams "silent" and "listen" hash alike mod 10. -/
theorem string_hash_perm_invariant_witness :
    ("silent".data.Perm "listen".data) ∧
      string_hash "silent" 10 = string_hash "listen" 10 :=
  ⟨by decide, string_hash_perm_invariant "silent" "listen" 10 (by decide)⟩

/-! ### Averaged ensemble theorems -/

/-- C7: the ensemble keeps one exponent per counter; an `add` pass updates
counter `i` with its own draw `us[i]` (no counter is dropped and no draw is
shared), and the estimate is the arithmetic mean of the `2^{c_i}`. -/
theorem mcs_ensemble_spec (ms : List MorrisCounter) (us : List ℚ)
    (item : String) (hlen : us.length = ms.length) :
    (mcsAdd ms us item).length = ms.length ∧
    (∀ i, (hi : i < ms.length) →
      (mcsAdd ms us item)[i]? = some (ms[i].add us[i] item)) ∧
    mcsEstimate ms = (ms.map (fun m => ((2:ℚ) ^ m.c))).sum / ms.length := by
  refine ⟨?_, ?_, ?_⟩
  · simp [mcsAdd, hlen]
  · intro i hi
    have hz : i < (mcsAdd ms us item).length := by
      simp [mcsAdd, hlen]
      omega
    rw [List.getElem?_eq_getElem hz]
    simp [mcsAdd]
  · unfold mcsEstimate
    have hmap : (ms.map fun m => ((m.len : ℚ))) =
        ms.map (fun m => ((2:ℚ) ^ m.c)) := by
      apply List.map_congr_left
      intro m _
      simp [MorrisCounter.len]
    rw [hmap]

/-- Witness for C7: two counters with exponents 0 and 3, draws 1/2 and 3/4. -/
theorem mcs_ensemble_spec_witness :
    ([(1:ℚ)/2, 3/4].length = [(⟨0⟩:MorrisCounter), ⟨3⟩].length) ∧
    (mcsAdd [⟨0⟩, ⟨3⟩] [1/2, 3/4] "w").length = 2 ∧
    (mcsAdd [⟨0⟩, ⟨3⟩] [1/2, 3/4] "w")[1]? =
      some (MorrisCounter.add ⟨3⟩ (3/4) "w") ∧
    mcsEstimate [⟨0⟩, ⟨3⟩] =
      (([(⟨0⟩:MorrisCounter), ⟨3⟩]).map (fun m => ((2:ℚ) ^ m.c))).sum / 2 :=
  ⟨by decide,
   (mcs_ensemble_spec [⟨0⟩, ⟨3⟩] [1/2, 3/4] "w" (by decide)).1,
   (mcs_ensemble_spec [⟨0⟩, ⟨3⟩] [1/2, 3/4] "w" (by decide)).2.1 1 (by decide),
   (mcs_ensemble_spec [⟨0⟩, ⟨3⟩] [1/2, 3/4] "w" (by decide)).2.2⟩

/-! ### Cardinality estimator theorems -/

theorem zipWith_max_self (l : List Nat) : List.zipWith max l l = l := by
  induction l with
  | nil => rfl
  | cons x xs ih => simp [List.zipWith, Nat.max_self, ih]

theorem zipWith_max_comm (l₁ l₂ : List Nat) :
    List.zipWith max l₁ l₂ = List.zipWith max l₂ l₁ := by
  induction l₁ generalizing l₂ with
  | nil => cases l₂ <;> rfl
  | cons x xs ih =>
      cases l₂ with
      | nil => rfl
      | cons y ys => simp [List.zipWith, Nat.max_comm, ih]

theorem zipWith_max_assoc (l₁ l₂ l₃ : List Nat) :
    List.zipWith max (List.zipWith max l₁ l₂) l₃ =
      List.zipWith max l₁ (List.zipWith max l₂ l₃) := by
  induction l₁ generalizing l₂ l₃ with
  | nil => rfl
  | cons x xs ih =>
      cases l₂ with
      | nil => rfl
      | cons y ys =>
          cases l₃ with
          | nil => rfl
          | cons z zs => simp [List.zipWith, Nat.max_assoc, ih]

theorem merge_self (A : CardinalityEstimator) : A.merge A = some A := by
  simp [CardinalityEstimator.merge, zipWith_max_self]

theorem merge_eq_of_len (a b : CardinalityEstimator)
    (h : a.registers.length = b.registers.length) :
    a.merge b = some ⟨List.zipWith max a.registers b.registers⟩ := by
  simp [CardinalityEstimator.merge, h]

/-- C5: register-wise `merge` on estimators of a common register count is
idempotent (`merge(A,A) = A`, hence the estimate of the merge is the
estimate of `A`), commutative, and associative. -/
theorem cardinality_merge_algebra (A B C : CardinalityEstimator)
    (hab : A.registers.length = B.registers.length)
    (hbc : B.registers.length = C.registers.length) :
    A.merge A = some A ∧
    (A.merge A).map CardinalityEstimator.estimate = some A.estimate ∧
    A.merge B = B.merge A ∧
    (A.merge B).bind (fun AB => AB.merge C) =
      (B.merge C).bind (fun BC => A.merge BC) := by
  refine ⟨merge_self A, ?_, ?_, ?_⟩
  · rw [merge_self A]
    rfl
  · rw [merge_eq_of_len A B hab, merge_eq_of_len B A hab.symm,
      zipWith_max_comm]
  · rw [merge_eq_of_len A B hab, Option.some_bind,
      merge_eq_of_len B C hbc, Option.some_bind,
      merge_eq_of_len _ C (by simp [hab, hbc]),
      merge_eq_of_len A _ (by simp [hab, hbc]),
      zipWith_max_assoc]

/-- Witness for C5 on two-register estimators. -/
theorem cardinality_merge_algebra_witness :
    ((⟨[1, 2]⟩ : CardinalityEstimator).registers.length =
      (⟨[2, 0]⟩ : CardinalityEstimator).registers.length) ∧
    ((⟨[2, 0]⟩ : CardinalityEstimator).registers.length =
      (⟨[0, 3]⟩ : CardinalityEstimator).registers.length) ∧
    (CardinalityEstimator.merge ⟨[1, 2]⟩ ⟨[1, 2]⟩ = some ⟨[1, 2]⟩ ∧
     (CardinalityEstimator.merge ⟨[1, 2]⟩ ⟨[1, 2]⟩).map
        CardinalityEstimator.estimate =
       some (CardinalityEstimator.estimate ⟨[1, 2]⟩) ∧
     CardinalityEstimator.merge ⟨[1, 2]⟩ ⟨[2, 0]⟩ =
       CardinalityEstimator.merge ⟨[2, 0]⟩ ⟨[1, 2]⟩ ∧
     (CardinalityEstimator.merge ⟨[1, 2]⟩ ⟨[2, 0]⟩).bind
        (fun AB => AB.merge ⟨[0, 3]⟩) =
       (CardinalityEstimator.merge ⟨[2, 0]⟩ ⟨[0, 3]⟩).bind
        (fun BC => CardinalityEstimator.merge ⟨[1, 2]⟩ BC)) :=
  ⟨by decide, by decide,
   cardinality_merge_algebra ⟨[1, 2]⟩ ⟨[2, 0]⟩ ⟨[0, 3]⟩ (by decide) (by decide)⟩

/-! ### Membership filter theorems -/

theorem getD_set_true_of_true {bs : List Bool} {i j : Nat}
    (h : bs.getD j false = true) : (bs.set i true).getD j false = true := by
  have hj : j < bs.length := by
    by_contra hge
    rw [List.getD_eq_default _ _ (Nat.le_of_not_lt hge)] at h
    exact Bool.false_ne_true h
  rcases Decidable.em (i = j) with he | hne
  · subst he
    simp [List.getD_eq_getElem?_getD, List.getElem?_set_self hj]
  · rw [List.getD_eq_getElem?_getD, List.getElem?_set_ne hne,
      ← List.getD_eq_getElem?_getD]
    exact h

theorem foldl_set_true_length (seeds : List Nat) (bs : List Bool)
    (pos : Nat → Nat) :
    (seeds.foldl (fun acc s => acc.set (pos s) true) bs).length = bs.length := by
  induction seeds generalizing bs with
  | nil => rfl
  | cons t ts ih => simp [List.foldl_cons, ih]

theorem foldl_set_true_preserves (seeds : List Nat) (bs : List Bool)
    (pos : Nat → Nat) (j : Nat) (h : bs.getD j false = true) :
    (seeds.foldl (fun acc s => acc.set (pos s) true) bs).getD j false = true := by
  induction seeds generalizing bs with
  | nil => exact h
  | cons t ts ih =>
      rw [List.foldl_cons]
      exact ih _ (getD_set_true_of_true h)

theorem foldl_set_true_hits (seeds : List Nat) (bs : List Bool)
    (pos : Nat → Nat) (s : Nat) (hs : s ∈ seeds) (hlt : pos s < bs.length) :
    (seeds.foldl (fun acc t => acc.set (pos t) true) bs).getD (pos s) false
      = true := by
  induction seeds generalizing bs with
  | nil => cases hs
  | cons t ts ih =>
      rw [List.foldl_cons]
      rcases List.mem_cons.mp hs with he | hm
      · subst he
        apply foldl_set_true_preserves
        simp [List.getD_eq_getElem?_getD, List.getElem?_set_self hlt]
      · exact ih _ hm (by simpa using hlt)

theorem contains_after_add (hash : Nat → String → Nat)
    (f : MembershipFilter) (x : String) (hk : 0 < f.k)
    (hlen : f.bits.length = f.k) :
    (f.add hash x).contains hash x = true := by
  unfold MembershipFilter.contains MembershipFilter.add
  rw [List.all_eq_true]
  intro s hs
  exact foldl_set_true_hits f.seeds f.bits (fun t => hash t x % f.k) s hs
    (by rw [hlen]; exact Nat.mod_lt _ hk)

theorem contains_mono_add (hash : Nat → String → Nat)
    (f : MembershipFilter) (x y : String)
    (h : f.contains hash x = true) :
    (f.add hash y).contains hash x = true := by
  unfold MembershipFilter.contains MembershipFilter.add
  unfold MembershipFilter.contains at h
  rw [List.all_eq_true] at h ⊢
  intro s hs
  exact foldl_set_true_preserves f.seeds f.bits (fun t => hash t y % f.k)
    _ (h s hs)

theorem contains_mono_addAll (hash : Nat → String → Nat)
    (f : MembershipFilter) (x : String) (ys : List String)
    (h : f.contains hash x = true) :
    (f.addAll hash ys).contains hash x = true := by
  induction ys generalizing f with
  | nil => exact h
  | cons y ys ih =>
      rw [MembershipFilter.addAll, List.foldl_cons]
      exact ih (f.add hash y) (contains_mono_add hash f x y h)

/-- C1: the membership filter never produces a false negative — once an
item has been added to a well-formed filter (positive capacity, bit vector
of length `k`), `contains` answers true immediately, and still answers
true after any further stream of `add` calls with arbitrary other items. -/
theorem membership_no_false_negative (hash : Nat → String → Nat)
    (f : MembershipFilter) (x : String) (ys : List String)
    (hk : 0 < f.k) (hlen : f.bits.length = f.k) :
    (f.add hash x).contains hash x = true ∧
    ((f.add hash x).addAll hash ys).contains hash x = true := by
  have h1 := contains_after_add hash f x hk hlen
  exact ⟨h1, contains_mono_addAll hash (f.add hash x) x ys h1⟩

/-- Witness for C1: a 5-bit filter with three seeds, adding "banana" and
then two further words. -/
theorem membership_no_false_negative_witness :
    0 < testFilter.k ∧ testFilter.bits.length = testFilter.k ∧
    ((testFilter.add testHash "banana").contains testHash "banana" = true ∧
     ((testFilter.add testHash "banana").addAll testHash
        ["artist", "Dublin"]).contains testHash "banana" = true) :=
  ⟨by decide, by decide,
   membership_no_false_negative testHash testFilter "banana"
     ["artist", "Dublin"] (by decide) (by decide)⟩
